import Mathlib

/-!
Verification of the curling delivery-analysis pipeline (the
`CurlingSlideAnalyzer` recording script and the `TrainingSessionAnalyzer`
comparison script).

Modelling conventions.  JavaScript numbers are modelled as exact rationals
(`ℚ`); the transcendental operations (`Math.sqrt` in the stability series,
`Math.log10` in the stability score, `Math.sqrt` in the standard deviation
of the coefficient of variation) are modelled over `ℝ`.  A comparison of
`Math.sqrt m` against a non-negative threshold `c` (as in the trimmer and
the auto-stop detector, where the square root is used only for threshold
tests) is embedded as the exact equivalent comparison of `m` against
`c ^ 2`.  `Math.max(...xs)` over a possibly-empty list starts from
`-Infinity`, which is modelled in `WithBot ℚ` with `⊥` playing the role of
`-Infinity`.  The parallel arrays `x`, `y`, `z` of the source are bundled
into one list of triples (the source indexes them in lockstep), with the
timestamp array kept separate exactly as in the source.
-/

namespace PeelWeight

/-- One triaxial sample: acceleration in m/s² (or, for the gyroscope
stream, angular rates in °/s with `x` = pitch, `y` = roll, `z` = yaw). -/
structure Accel3 where
  x : ℚ
  y : ℚ
  z : ℚ
deriving DecidableEq

/-- The zero sample, used as the out-of-range default for list indexing. -/
def zA : Accel3 := ⟨0, 0, 0⟩

/-- Squared magnitude `ax²+ay²+az²`; the source compares `Math.sqrt` of
this quantity against fixed thresholds, which we embed squared. -/
def magSq (s : Accel3) : ℚ := s.x ^ 2 + s.y ^ 2 + s.z ^ 2

/-- `sqrt(ax²+ay²+az²) > 2.0` from `trimToActualThrow`, embedded as
`magSq > 4`. -/
def bigB (s : Accel3) : Bool := decide (4 < magSq s)

/-- `sqrt(ax²+ay²+az²) < 1.5` from `trimToActualThrow`, embedded as
`magSq < 9/4`. -/
def calmB (s : Accel3) : Bool := decide (magSq s < 9 / 4)

/-- Start-detection loop of `trimToActualThrow`: scan for the first sample
whose magnitude exceeds 2.0 m/s² and return `i - 5` (truncated natural
subtraction realises `Math.max(0, i - 5)`), or 0 when no sample exceeds
the threshold.  The accumulator `i` is the absolute index of the head. -/
def findStartAux : List Accel3 → ℕ → ℕ
  | [], _ => 0
  | s :: rest, i => if bigB s then i - 5 else findStartAux rest (i + 1)

/-- `startIndex` computed by `trimToActualThrow`. -/
def trimStartIndex (accel : List Accel3) : ℕ := findStartAux accel 0

/-- End-detection loop of `trimToActualThrow`: starting at absolute index
`i` with current calm-run length `calm`, a sample below 1.5 m/s²
increments the run (returning `i - 20 + 10` when the run reaches 20) and
any other sample resets the run to 0.  Returns `none` when the run never
reaches 20. -/
def findEndAux : List Accel3 → ℕ → ℕ → Option ℕ
  | [], _, _ => none
  | s :: rest, i, calm =>
    if calmB s then
      if 20 ≤ calm + 1 then some (i - 20 + 10)
      else findEndAux rest (i + 1) (calm + 1)
    else findEndAux rest (i + 1) 0

/-- `endIndex` computed by `trimToActualThrow`: the scan starts at
`startIndex + 30` with calm count 0, and defaults to the last index of the
stream when the scan finds no settling run. -/
def trimEndIndex (accel : List Accel3) : ℕ :=
  (findEndAux (accel.drop (trimStartIndex accel + 30)) (trimStartIndex accel + 30) 0).getD
    (accel.length - 1)

/-- Specification-side description of the settling point: `j` is an index
of the stream at which a run of 20 consecutive samples below 1.5 m/s²
(counted from the scan start `startIndex + 30`, hence `j ≥ startIndex+49`)
completes; the run condition is that samples `j-19 .. j` are all calm. -/
def endCompletionB (accel : List Accel3) (j : ℕ) : Bool :=
  decide (trimStartIndex accel + 49 ≤ j) && decide (j < accel.length) &&
    (List.range 20).all (fun t => calmB (accel.getD (j - t) zA))

/-- Unified loop invariant for `findEndAux`: with pending calm-run credit
`c`, the run reaches 20 at offset `k` of the remaining list exactly when
the last `min 20 (k+1)` elements up to `k` are calm and `c + k + 1 ≥ 20`. -/
def complUB (l : List Accel3) (c k : ℕ) : Bool :=
  decide (k < l.length) && decide (20 ≤ c + k + 1) &&
    (List.range (min 20 (k + 1))).all (fun t => calmB (l.getD (k - t) zA))

/-- Raw per-recording sensor store of the analyzer (`this.sensorData`),
with each stream's parallel `x`/`y`/`z` arrays bundled into triples. -/
structure SensorData where
  accel : List Accel3
  accelTs : List ℚ
  gyro : List Accel3
  gyroTs : List ℚ
  velocity : List ℚ
deriving DecidableEq

/-- `hasData()`: whether the acceleration or the gyroscope stream holds at
least one sample. -/
def hasData (d : SensorData) : Bool :=
  decide (0 < d.accel.length) || decide (0 < d.gyro.length)

/-- `trimToActualThrow()`: no-op on an empty acceleration stream;
otherwise slice both streams to `[startIndex, endIndex]` and re-base all
timestamps by the first retained acceleration timestamp. -/
def trimToActualThrow (d : SensorData) : SensorData :=
  if d.accel = [] then d
  else
    let st := trimStartIndex d.accel
    let en := trimEndIndex d.accel
    let accel' := (d.accel.drop st).take (en + 1 - st)
    let ts' := (d.accelTs.drop st).take (en + 1 - st)
    let t0 := ts'.headD 0
    { accel := accel'
      accelTs := ts'.map (fun t => t - t0)
      gyro := if d.gyro = [] then d.gyro else (d.gyro.drop st).take (en + 1 - st)
      gyroTs :=
        if d.gyro = [] then d.gyroTs
        else ((d.gyroTs.drop st).take (en + 1 - st)).map (fun t => t - t0)
      velocity := d.velocity }

/-- Value of `velocity.x[i]` built by the integration loop of
`calculateVelocity()`: `v[0] = 0` and
`v[i] = v[i-1] + ((ax[i] + ax[i-1]) / 2) * (t[i] - t[i-1])`. -/
def velAt (ax ts : List ℚ) : ℕ → ℚ
  | 0 => 0
  | i + 1 =>
    velAt ax ts i + ((ax.getD (i + 1) 0 + ax.getD i 0) / 2) * (ts.getD (i + 1) 0 - ts.getD i 0)

/-- `calculateVelocity()`: the loop seeds `velocity.x = [0]` and pushes
one trapezoidal step per remaining acceleration sample, so the result is
`[v 0, v 1, …, v (n-1)]` — and the one-element list `[0]` when the
acceleration stream is empty. -/
def calculateVelocityX (ax ts : List ℚ) : List ℚ :=
  (List.range (max ax.length 1)).map (velAt ax ts)

/-- The `calculateVelocity()` step of `processData()` on the sensor store. -/
def calculateVelocityM (d : SensorData) : SensorData :=
  { d with velocity := calculateVelocityX (d.accel.map (fun s => s.x)) d.accelTs }

/-- `Math.max(...l)` over JavaScript numbers: the fold starts from
`-Infinity`, modelled as `⊥` in `WithBot ℚ`. -/
def mathMax (l : List ℚ) : WithBot ℚ :=
  l.foldl (fun acc v => max acc (v : WithBot ℚ)) ⊥

/-- `Math.floor(n * 0.2)`: size of the push-off window (first 20% of the
trimmed samples by count). -/
def pushoffPeriodOf (n : ℕ) : ℕ := (⌊(n : ℚ) * 0.2⌋).toNat

/-- Raw (signed) deceleration rate of `calculateAnalysisMetrics()`: the
mean of the strictly negative forward accelerations after the push-off
window, or 0 when there is none. -/
def decelRateRaw (ax : List ℚ) : ℚ :=
  let slideData := ax.drop (pushoffPeriodOf ax.length)
  let negativeAccel := slideData.filter (fun a => decide (a < 0))
  if 0 < negativeAccel.length then negativeAccel.sum / (negativeAccel.length : ℚ) else 0

/-- Glide-efficiency classification of `calculateAnalysisMetrics()`,
applied to the absolute deceleration rate, high-drag check first. -/
def glideEfficiencyOf (avgDecel : ℚ) : String :=
  if 2 < avgDecel then "Poor (High Drag)"
  else if avgDecel < 0.5 then "Excellent"
  else if avgDecel < 1 then "Very Good"
  else "Good"

/-- Per-sample pitch/roll magnitude series
`sqrt(pitch[i]² + roll[i]²)` of `calculateAnalysisMetrics()`; a missing
roll entry reads as 0 (`gyro.y[i] || 0`). -/
noncomputable def pitchRollSeries (gx gy : List ℚ) : List ℝ :=
  (List.range gx.length).map
    (fun i => Real.sqrt (((gx.getD i 0 : ℚ) : ℝ) ^ 2 + ((gy.getD i 0 : ℚ) : ℝ) ^ 2))

/-- `calculateVariance()`: population variance with an explicit guard
returning 0 on the empty list. -/
noncomputable def calculateVariance (data : List ℝ) : ℝ :=
  if data = [] then 0
  else
    let mean := data.sum / (data.length : ℝ)
    (data.map (fun v => (v - mean) ^ 2)).sum / (data.length : ℝ)

/-- Scalar stability score of `calculateAnalysisMetrics()`:
`Math.max(0, Math.min(100, 100 - Math.log10(variance + 1) * 20))` over the
pitch/roll magnitude series. -/
noncomputable def stabilityScoreOf (gx gy : List ℚ) : ℝ :=
  max 0 (min 100 (100 - Real.logb 10 (calculateVariance (pitchRollSeries gx gy) + 1) * 20))

/-- The per-throw metrics record assembled by `calculateAnalysisMetrics()`
(the `id`/`timestamp`/`sessionId` identity fields added at save time are
provenance only and are omitted). -/
structure ThrowMetrics where
  pushoffStrength : WithBot ℚ
  peakVelocity : WithBot ℚ
  slideDuration : ℚ
  decelRate : ℚ
  stabilityScore : ℝ
  glideEfficiency : String

/-- `calculateAnalysisMetrics()` on the (already trimmed and integrated)
series: forward accelerations `ax`, acceleration timestamps `ts`, velocity
series `vx`, gyroscope pitch `gx` and roll `gy`. -/
noncomputable def calculateAnalysisMetricsFn (ax ts vx gx gy : List ℚ) : ThrowMetrics :=
  { pushoffStrength := mathMax ((ax.take (pushoffPeriodOf ax.length)).map (fun a => |a|))
    peakVelocity := mathMax (vx.map (fun v => |v|))
    slideDuration := if ts = [] then 0 else ts.getLastD 0 - ts.headD 0
    decelRate := |decelRateRaw ax|
    stabilityScore := stabilityScoreOf gx gy
    glideEfficiency := glideEfficiencyOf |decelRateRaw ax| }

/-- `calculateAnalysisMetrics()` reading the processed sensor store. -/
noncomputable def metricsOfData (d : SensorData) : ThrowMetrics :=
  calculateAnalysisMetricsFn (d.accel.map (fun s => s.x)) d.accelTs d.velocity
    (d.gyro.map (fun s => s.x)) (d.gyro.map (fun s => s.y))

/-- `processData()`: when any sensor data was recorded, trim to the actual
throw and integrate the velocity; on an entirely empty capture it alerts
and leaves the store untouched. -/
def processDataM (d : SensorData) : SensorData :=
  if hasData d then calculateVelocityM (trimToActualThrow d) else d

/-- The throw record persisted by `stopRecording → showAnalysis →
saveThrowToSession`: `showAnalysis` returns without saving when
`hasData()` is false, otherwise the metrics of the processed store are
saved.  `none` models the returned (not thrown) no-data outcome. -/
noncomputable def savedThrowOf (d : SensorData) : Option ThrowMetrics :=
  if hasData d then some (metricsOfData (processDataM d)) else none

/-- Persistent state touched by `stopRecording()`: the sensor store, the
recording flag and the session's persisted throw list. -/
structure AppState where
  data : SensorData
  recording : Bool
  throws : List ThrowMetrics

/-- `stopRecording()`: clears the recording flag, re-processes the stored
sensor data in place and appends the resulting metrics record (when data
is present) to the persisted session throw list. -/
noncomputable def stopRecordingM (st : AppState) : AppState :=
  { data := processDataM st.data
    recording := false
    throws := st.throws ++ (savedThrowOf st.data).toList }

/-- One raw `devicemotion` acceleration sample with its session-relative
timestamp in seconds. -/
structure MotionSample where
  ax : ℚ
  ay : ℚ
  az : ℚ
  t : ℚ
deriving DecidableEq

/-- Squared acceleration magnitude of a motion sample (`checkAutoStop`
compares `Math.sqrt` of this against 1.5, embedded squared). -/
def sampleMagSq (s : MotionSample) : ℚ := s.ax ^ 2 + s.ay ^ 2 + s.az ^ 2

/-- Auto-stop detector state initialised by `startSensorListening()`:
recording flag, timestamp of the last rate-limited check, and the sliding
buffer of `(magnitude², timestamp)` pairs. -/
structure AutoStopState where
  isRecording : Bool
  lastAutoStopCheck : ℚ
  buffer : List (ℚ × ℚ)
deriving DecidableEq

/-- Detector state at the start of a recording. -/
def initialAutoStopState : AutoStopState := ⟨true, 0, []⟩

/-- Buffer eviction of `checkAutoStop`: keep only entries at most 3.0 s
old relative to the current timestamp. -/
def evictOld (buf : List (ℚ × ℚ)) (now : ℚ) : List (ℚ × ℚ) :=
  buf.filter (fun p => decide (now - p.2 ≤ 3))

/-- Buffer contents after `checkAutoStop` pushes the current sample and
evicts stale entries. -/
def checkedBuffer (st : AutoStopState) (s : MotionSample) : List (ℚ × ℚ) :=
  evictOld (st.buffer ++ [(sampleMagSq s, s.t)]) s.t

/-- One `devicemotion` callback of the auto-stop path: ignore everything
when not recording; run `checkAutoStop` only after the 10 s grace period
and at most once per 0.5 s; stop (clearing the recording flag) when the
evicted buffer holds at least 6 entries, all below 1.5 m/s² (squared:
`9/4`). -/
def autoStopSignal (st : AutoStopState) (s : MotionSample) : Bool :=
  decide (6 ≤ (checkedBuffer st s).length) &&
    (checkedBuffer st s).all (fun p => decide (p.1 < 9 / 4))

/-- One `devicemotion` callback of the auto-stop path: ignore everything
when not recording; run `checkAutoStop` only after the 10 s grace period
(`timestamp > 10.0`) and at most once per 0.5 s of elapsed time; stop
(clearing the recording flag) exactly when `autoStopSignal` holds.
Returns the new state and whether the stop signal fired. -/
def autoStopStep (st : AutoStopState) (s : MotionSample) : AutoStopState × Bool :=
  if st.isRecording then
    if 10 < s.t ∧ 1 / 2 ≤ s.t - st.lastAutoStopCheck then
      (⟨!autoStopSignal st s, s.t, checkedBuffer st s⟩, autoStopSignal st s)
    else (st, false)
  else (st, false)

/-- Feed a whole sample stream through the detector, counting emitted
stop signals. -/
def autoStopRun (st : AutoStopState) : List MotionSample → AutoStopState × ℕ
  | [] => (st, 0)
  | s :: rest =>
    ((autoStopRun (autoStopStep st s).1 rest).1,
      (if (autoStopStep st s).2 then 1 else 0) + (autoStopRun (autoStopStep st s).1 rest).2)

/-- One persisted throw as read back by the `TrainingSessionAnalyzer`
(only the three numeric fields entering the consistency statistic). -/
structure SessionThrow where
  pushoffStrength : ℝ
  peakVelocity : ℝ
  stabilityScore : ℝ

/-- `calculateCV()`: coefficient of variation `stdDev/mean * 100`, with 0
for an empty list and 0 when the mean is 0. -/
noncomputable def calculateCV (values : List ℝ) : ℝ :=
  if values = [] then 0
  else if values.sum / (values.length : ℝ) = 0 then 0
  else
    Real.sqrt
        ((values.map (fun v => (v - values.sum / (values.length : ℝ)) ^ 2)).sum /
          (values.length : ℝ)) /
      (values.sum / (values.length : ℝ)) * 100

/-- The `consistency` field of `calculateSessionSummary()`:
`Math.max(0, 100 - avgCV * 10)` where `avgCV` averages the coefficients of
variation of the push-off, peak-velocity and stability sequences. -/
noncomputable def consistencyOf (throws : List SessionThrow) : ℝ :=
  max 0 (100 -
    (calculateCV (throws.map (fun t => t.pushoffStrength)) +
        calculateCV (throws.map (fun t => t.peakVelocity)) +
        calculateCV (throws.map (fun t => t.stabilityScore))) / 3 * 10)

/-! ### Helper lemmas -/

theorem getD_map_range {α : Type} (f : ℕ → α) (d : α) {i n : ℕ} (h : i < n) :
    ((List.range n).map f).getD i d = f i := by
  rw [List.getD_eq_getElem?_getD, List.getElem?_map, List.getElem?_range h, Option.map_some',
    Option.getD_some]

theorem getD_replicate' {α : Type} (a d : α) {i n : ℕ} (h : i < n) :
    (List.replicate n a).getD i d = a := by
  rw [List.getD_eq_getElem?_getD, List.getElem?_replicate, if_pos h, Option.getD_some]

theorem velAt_const (n : ℕ) (a dt : ℚ) :
    ∀ i, i < n →
      velAt (List.replicate n a) ((List.range n).map (fun (j : ℕ) => (j : ℚ) * dt)) i = (i : ℚ) * a * dt
  | 0, _ => by simp [velAt]
  | i + 1, h => by
    have hi : i < n := by omega
    rw [velAt, velAt_const n a dt i hi, getD_replicate' a 0 h, getD_replicate' a 0 hi,
      getD_map_range _ 0 h, getD_map_range _ 0 hi]
    push_cast
    ring

theorem getD_drop' {α : Type} (l : List α) (d : α) (m k : ℕ) :
    (l.drop m).getD k d = l.getD (m + k) d := by
  rw [List.getD_eq_getElem?_getD, List.getD_eq_getElem?_getD, List.getElem?_drop]

theorem findStartAux_eq (l : List Accel3) (i : ℕ) :
    findStartAux l i =
      match List.findIdx? bigB l i with
      | some k => k - 5
      | none => 0 := by
  induction l generalizing i with
  | nil => rfl
  | cons s rest ih =>
    rw [findStartAux, List.findIdx?_cons]
    by_cases hb : bigB s = true
    · rw [if_pos hb, if_pos hb]
    · rw [if_neg hb, if_neg hb]
      exact ih (i + 1)

theorem complUB_iff (l : List Accel3) (c k : ℕ) :
    complUB l c k = true ↔
      (k < l.length ∧ 20 ≤ c + k + 1 ∧
        ∀ t < min 20 (k + 1), calmB (l.getD (k - t) zA) = true) := by
  simp [complUB, List.all_eq_true, List.mem_range, and_assoc]

theorem complU_zero (s : Accel3) (rest : List Accel3) (c : ℕ) :
    complUB (s :: rest) c 0 = true ↔ (calmB s = true ∧ 19 ≤ c) := by
  rw [complUB_iff]
  constructor
  · rintro ⟨-, h2, h3⟩
    exact ⟨by simpa using h3 0 (by omega), by omega⟩
  · rintro ⟨h1, h2⟩
    refine ⟨by simp, by omega, ?_⟩
    intro t ht
    have ht0 : t = 0 := by omega
    subst ht0
    simpa using h1

theorem complU_succ_calm (s : Accel3) (rest : List Accel3) (c k : ℕ)
    (hs : calmB s = true) :
    complUB (s :: rest) c (k + 1) = true ↔ complUB rest (c + 1) k = true := by
  rw [complUB_iff, complUB_iff]
  constructor
  · rintro ⟨h1, h2, h3⟩
    refine ⟨by simpa using h1, by omega, ?_⟩
    intro t ht
    have hh := h3 t (by omega)
    rwa [show k + 1 - t = (k - t) + 1 by omega, List.getD_cons_succ] at hh
  · rintro ⟨h1, h2, h3⟩
    refine ⟨by simp; omega, by omega, ?_⟩
    intro t ht
    by_cases htk : t ≤ k
    · have hh := h3 t (by omega)
      rwa [show k + 1 - t = (k - t) + 1 by omega, List.getD_cons_succ]
    · have ht1 : t = k + 1 := by omega
      subst ht1
      rw [Nat.sub_self, List.getD_cons_zero]
      exact hs

theorem complU_succ_notcalm (s : Accel3) (rest : List Accel3) (c k : ℕ)
    (hs : calmB s = false) :
    complUB (s :: rest) c (k + 1) = true ↔ complUB rest 0 k = true := by
  rw [complUB_iff, complUB_iff]
  constructor
  · rintro ⟨h1, h2, h3⟩
    have hk : 19 ≤ k := by
      by_contra hk
      have hh := h3 (k + 1) (by omega)
      rw [Nat.sub_self, List.getD_cons_zero, hs] at hh
      exact Bool.false_ne_true hh
    refine ⟨by simpa using h1, by omega, ?_⟩
    intro t ht
    have hh := h3 t (by omega)
    rwa [show k + 1 - t = (k - t) + 1 by omega, List.getD_cons_succ] at hh
  · rintro ⟨h1, h2, h3⟩
    refine ⟨by simp; omega, by omega, ?_⟩
    intro t ht
    have hh := h3 t (by omega)
    rwa [show k + 1 - t = (k - t) + 1 by omega, List.getD_cons_succ]

theorem exists_succ_rel {p q : ℕ → Prop} (h0 : ¬ p 0) (hs : ∀ k, p (k + 1) ↔ q k)
    (hp : ∃ k, p k) : ∃ k, q k := by
  obtain ⟨k, hk⟩ := hp
  cases k with
  | zero => exact absurd hk h0
  | succ k => exact ⟨k, (hs k).mp hk⟩

theorem find_succ_rel {p q : ℕ → Prop} [DecidablePred p] [DecidablePred q]
    (h0 : ¬ p 0) (hs : ∀ k, p (k + 1) ↔ q k) (hp : ∃ k, p k) (hq : ∃ k, q k) :
    Nat.find hp = Nat.find hq + 1 := by
  rw [Nat.find_eq_iff]
  refine ⟨(hs _).mpr (Nat.find_spec hq), ?_⟩
  intro m hm hpm
  cases m with
  | zero => exact h0 hpm
  | succ m => exact Nat.find_min hq (by omega) ((hs m).mp hpm)

theorem findEndAux_none (l : List Accel3) : ∀ (i c : ℕ),
    (∀ k, ¬ complUB l c k = true) → findEndAux l i c = none := by
  induction l with
  | nil => intro i c _; rfl
  | cons s rest ih =>
    intro i c hnone
    rw [findEndAux]
    by_cases hcalm : calmB s = true
    · rw [if_pos hcalm]
      by_cases hc : 20 ≤ c + 1
      · exact absurd ((complU_zero s rest c).mpr ⟨hcalm, by omega⟩) (hnone 0)
      · rw [if_neg hc]
        exact ih (i + 1) (c + 1)
          (fun k hk => hnone (k + 1) ((complU_succ_calm s rest c k hcalm).mpr hk))
    · replace hcalm : calmB s = false := by simpa using hcalm
      rw [if_neg (by simp [hcalm])]
      exact ih (i + 1) 0
        (fun k hk => hnone (k + 1) ((complU_succ_notcalm s rest c k hcalm).mpr hk))

theorem findEndAux_some (l : List Accel3) : ∀ (i c : ℕ) (h : ∃ k, complUB l c k = true),
    findEndAux l i c = some ((i + Nat.find h) - 20 + 10) := by
  induction l with
  | nil =>
    intro i c h
    obtain ⟨k, hk⟩ := h
    simp [complUB] at hk
  | cons s rest ih =>
    intro i c h
    rw [findEndAux]
    by_cases hcalm : calmB s = true
    · rw [if_pos hcalm]
      by_cases hc : 20 ≤ c + 1
      · rw [if_pos hc]
        have hz : complUB (s :: rest) c 0 = true :=
          (complU_zero s rest c).mpr ⟨hcalm, by omega⟩
        rw [(Nat.find_eq_zero h).mpr hz]
        congr 1
      · rw [if_neg hc]
        have h0 : ¬ complUB (s :: rest) c 0 = true := by
          rw [complU_zero]
          rintro ⟨-, hcc⟩
          omega
        have hq : ∃ k, complUB rest (c + 1) k = true :=
          exists_succ_rel h0 (complU_succ_calm s rest c · hcalm) h
        rw [ih (i + 1) (c + 1) hq,
          find_succ_rel h0 (complU_succ_calm s rest c · hcalm) h hq]
        congr 1
        omega
    · replace hcalm : calmB s = false := by simpa using hcalm
      rw [if_neg (by simp [hcalm])]
      have h0 : ¬ complUB (s :: rest) c 0 = true := by
        rw [complU_zero]
        rintro ⟨hcc, -⟩
        rw [hcalm] at hcc
        exact Bool.false_ne_true hcc
      have hq : ∃ k, complUB rest 0 k = true :=
        exists_succ_rel h0 (complU_succ_notcalm s rest c · hcalm) h
      rw [ih (i + 1) 0 hq, find_succ_rel h0 (complU_succ_notcalm s rest c · hcalm) h hq]
      congr 1
      omega

theorem endCompletionB_iff (accel : List Accel3) (j : ℕ) :
    endCompletionB accel j = true ↔
      (trimStartIndex accel + 30 ≤ j ∧
        complUB (accel.drop (trimStartIndex accel + 30)) 0
          (j - (trimStartIndex accel + 30)) = true) := by
  rw [complUB_iff]
  simp only [endCompletionB, Bool.and_eq_true, decide_eq_true_eq, List.all_eq_true,
    List.mem_range, List.length_drop]
  constructor
  · rintro ⟨⟨h1, h2⟩, h3⟩
    refine ⟨by omega, by omega, by omega, ?_⟩
    intro t ht
    rw [getD_drop',
      show trimStartIndex accel + 30 + (j - (trimStartIndex accel + 30) - t) = j - t by omega]
    exact h3 t (by omega)
  · rintro ⟨hle, h1, h2, h3⟩
    refine ⟨⟨by omega, by omega⟩, ?_⟩
    intro t ht
    have hh := h3 t (by omega)
    rwa [getD_drop',
      show trimStartIndex accel + 30 + (j - (trimStartIndex accel + 30) - t) = j - t by omega]
      at hh

theorem exists_endCompletion_iff (accel : List Accel3) :
    (∃ j, endCompletionB accel j = true) ↔
      ∃ k, complUB (accel.drop (trimStartIndex accel + 30)) 0 k = true := by
  constructor
  · rintro ⟨j, hj⟩
    obtain ⟨-, h⟩ := (endCompletionB_iff accel j).mp hj
    exact ⟨_, h⟩
  · rintro ⟨k, hk⟩
    refine ⟨trimStartIndex accel + 30 + k, (endCompletionB_iff accel _).mpr ⟨by omega, ?_⟩⟩
    rwa [show trimStartIndex accel + 30 + k - (trimStartIndex accel + 30) = k by omega]

theorem find_endCompletion (accel : List Accel3)
    (hp : ∃ j, endCompletionB accel j = true)
    (hq : ∃ k, complUB (accel.drop (trimStartIndex accel + 30)) 0 k = true) :
    Nat.find hp = trimStartIndex accel + 30 + Nat.find hq := by
  rw [Nat.find_eq_iff]
  constructor
  · refine (endCompletionB_iff accel _).mpr ⟨by omega, ?_⟩
    have hh := Nat.find_spec hq
    rwa [show trimStartIndex accel + 30 + Nat.find hq - (trimStartIndex accel + 30) =
      Nat.find hq by omega]
  · intro m hm hpm
    obtain ⟨hle, hcm⟩ := (endCompletionB_iff accel m).mp hpm
    exact Nat.find_min hq (by omega) hcm

theorem calculateVariance_nonneg (data : List ℝ) : 0 ≤ calculateVariance data := by
  rw [calculateVariance]
  split_ifs
  · exact le_refl 0
  · apply div_nonneg
    · apply List.sum_nonneg
      intro x hx
      obtain ⟨v, -, rfl⟩ := List.mem_map.mp hx
      positivity
    · positivity

/-! ### Claim theorems -/

/-- C2: DeliveryTrimmer interval selection.  `startIndex` is
`max(0, i - 5)` (truncated natural subtraction) for the first index `i`
whose magnitude exceeds 2.0 m/s² (embedded squared as `magSq > 4`), and 0
when no sample exceeds the threshold — in particular whenever every
magnitude stays at or below it.  Scanning from `startIndex + 30`,
`endIndex = j - 20 + 10` at the first index `j` where a run of 20
consecutive samples below 1.5 m/s² completes (`endCompletionB`: the 20
samples `j-19 .. j` all calm and entirely inside the scan region, a
sample at or above the threshold resetting the run), and `endIndex` is
the last index of the stream when no such run occurs. -/
theorem C2_trimmer_selection (accel : List Accel3) :
    (trimStartIndex accel =
        match accel.findIdx? bigB with
        | some i => i - 5
        | none => 0)
    ∧ ((∀ s ∈ accel, magSq s ≤ 4) → trimStartIndex accel = 0)
    ∧ (∀ h : ∃ j, endCompletionB accel j = true,
        trimEndIndex accel = Nat.find h - 20 + 10)
    ∧ (accel ≠ [] → (∀ j, ¬ endCompletionB accel j = true) →
        trimEndIndex accel = accel.length - 1) := by
  refine ⟨findStartAux_eq accel 0, ?_, ?_, ?_⟩
  · intro hsmall
    rw [trimStartIndex, findStartAux_eq accel 0]
    have hnone : accel.findIdx? bigB = none := by
      rw [List.findIdx?_eq_none_iff]
      intro s hs
      simp only [bigB, decide_eq_false_iff_not, not_lt]
      exact hsmall s hs
    rw [hnone]
  · intro h
    have hq := (exists_endCompletion_iff accel).mp h
    rw [trimEndIndex, findEndAux_some _ _ _ hq, Option.getD_some, find_endCompletion accel h hq]
  · intro _ hnone
    have hq : ¬ ∃ k, complUB (accel.drop (trimStartIndex accel + 30)) 0 k = true := by
      rw [← exists_endCompletion_iff]
      rintro ⟨j, hj⟩
      exact hnone j hj
    rw [trimEndIndex, findEndAux_none _ _ _ (fun k hk => hq ⟨k, hk⟩)]
    rfl

/-- C2 (witness): the all-below-threshold start rule and the
no-settling-run end rule applied to the one-sample stream `(1,0,0)`. -/
theorem C2_witness :
    trimStartIndex [(⟨1, 0, 0⟩ : Accel3)] = 0 ∧ trimEndIndex [(⟨1, 0, 0⟩ : Accel3)] = 0 :=
  ⟨(C2_trimmer_selection [⟨1, 0, 0⟩]).2.1
      (by
        intro s hs
        simp only [List.mem_singleton] at hs
        subst hs
        norm_num [magSq]),
    (C2_trimmer_selection [⟨1, 0, 0⟩]).2.2.2 (by simp)
      (by
        intro j hj
        simp only [endCompletionB, Bool.and_eq_true, decide_eq_true_eq] at hj
        obtain ⟨⟨h1, h2⟩, -⟩ := hj
        simp only [List.length_singleton] at h2
        omega)⟩

/-- C3 (counterexample): the claim asserts that for every trimmed
acceleration series the integrator returns a series of the same length,
but on the empty series (produced by the pipeline when only gyroscope
samples were captured) the loop seeds `velocity.x = [0]`, so the output
has length 1 while the input has length 0. -/
theorem C3_counterexample :
    (calculateVelocityX [] []).length ≠ ([] : List ℚ).length := by
  simp [calculateVelocityX]

/-- C3 (amended): for every non-empty trimmed acceleration series the
integrator returns a VelocitySeries of the same length with
`velocity[0] = 0` and
`velocity[i] = velocity[i-1] + ((ax[i]+ax[i-1])/2) * (t[i]-t[i-1])`;
for constant acceleration `a` at uniform spacing `dt`,
`velocity[i] = i * a * dt` exactly. -/
theorem C3_velocity :
    (∀ ax ts : List ℚ, ax ≠ [] → (calculateVelocityX ax ts).length = ax.length)
    ∧ (∀ ax ts : List ℚ, (calculateVelocityX ax ts).getD 0 0 = 0)
    ∧ (∀ ax ts : List ℚ, ∀ i, 1 ≤ i → i < ax.length →
        (calculateVelocityX ax ts).getD i 0 =
          (calculateVelocityX ax ts).getD (i - 1) 0 +
            (ax.getD i 0 + ax.getD (i - 1) 0) / 2 * (ts.getD i 0 - ts.getD (i - 1) 0))
    ∧ (∀ (n : ℕ) (a dt : ℚ) (i : ℕ), i < n →
        (calculateVelocityX (List.replicate n a)
            ((List.range n).map (fun (j : ℕ) => (j : ℚ) * dt))).getD i 0 = (i : ℚ) * a * dt) := by
  refine ⟨?_, ?_, ?_, ?_⟩
  · intro ax ts hne
    have h : 0 < ax.length := List.length_pos.mpr hne
    simp only [calculateVelocityX, List.length_map, List.length_range]
    omega
  · intro ax ts
    rw [calculateVelocityX, getD_map_range _ 0 (show 0 < max ax.length 1 by omega)]
    rfl
  · intro ax ts i h1 h2
    obtain ⟨k, rfl⟩ : ∃ k, i = k + 1 := ⟨i - 1, by omega⟩
    rw [calculateVelocityX, getD_map_range _ 0 (show k + 1 < max ax.length 1 by omega),
      getD_map_range _ 0 (show k + 1 - 1 < max ax.length 1 by omega)]
    simp only [Nat.add_sub_cancel]
    rw [velAt]
  · intro n a dt i h
    have hlen : i < max (List.replicate n a).length 1 := by
      simp only [List.length_replicate]; omega
    rw [calculateVelocityX, getD_map_range _ 0 hlen]
    exact velAt_const n a dt i h

/-- C3 (witness): the amended theorem applied at the one-sample series
`[1]` and at a constant-acceleration input with `n = 3`, `a = 2`,
`dt = 1`. -/
theorem C3_witness :
    (calculateVelocityX [(1 : ℚ)] [(0 : ℚ)]).length = 1
      ∧ (calculateVelocityX (List.replicate 3 (2 : ℚ))
          ((List.range 3).map (fun (j : ℕ) => (j : ℚ) * 1))).getD 2 0 = (2 : ℚ) * 2 * 1 :=
  ⟨C3_velocity.1 [1] [0] (by simp), C3_velocity.2.2.2 3 2 1 2 (by norm_num)⟩

/-- C5: `decelRate` is the absolute mean of the strictly negative forward
accelerations after the first `⌊0.2 n⌋` samples (0 when none exists);
glide efficiency classifies the absolute rate with the high-drag check
first (`> 2.0` Poor, `< 0.5` Excellent, `< 1.0` Very Good, otherwise
Good); and the series `[5, 5, -1, -2, -1]` yields rate `4/3`
(displayed as `1.333` by 3-decimal rounding), classified "Good". -/
theorem C5_decel_glide :
    (∀ ax : List ℚ,
        (ax.drop (pushoffPeriodOf ax.length)).filter (fun a => decide (a < 0)) = [] →
          |decelRateRaw ax| = 0)
    ∧ (∀ ax : List ℚ,
        (ax.drop (pushoffPeriodOf ax.length)).filter (fun a => decide (a < 0)) ≠ [] →
          |decelRateRaw ax| =
            |((ax.drop (pushoffPeriodOf ax.length)).filter (fun a => decide (a < 0))).sum /
              (((ax.drop (pushoffPeriodOf ax.length)).filter (fun a => decide (a < 0))).length :
                ℚ)|)
    ∧ (∀ q : ℚ, 2 < q → glideEfficiencyOf q = "Poor (High Drag)")
    ∧ (∀ q : ℚ, q < 1 / 2 → glideEfficiencyOf q = "Excellent")
    ∧ (∀ q : ℚ, 1 / 2 ≤ q → q < 1 → glideEfficiencyOf q = "Very Good")
    ∧ (∀ q : ℚ, 1 ≤ q → q ≤ 2 → glideEfficiencyOf q = "Good")
    ∧ |decelRateRaw [5, 5, -1, -2, -1]| = 4 / 3
    ∧ glideEfficiencyOf |decelRateRaw [5, 5, -1, -2, -1]| = "Good"
    ∧ ⌊|decelRateRaw [5, 5, -1, -2, -1]| * 1000 + 1 / 2⌋ = 1333 := by
  have hperiod : pushoffPeriodOf 5 = 1 := by norm_num [pushoffPeriodOf]
  have hconc : decelRateRaw [5, 5, -1, -2, -1] = -(4 / 3) := by
    rw [decelRateRaw]
    norm_num [hperiod]
  refine ⟨?_, ?_, ?_, ?_, ?_, ?_, ?_, ?_, ?_⟩
  · intro ax hnil
    rw [decelRateRaw]
    simp [hnil]
  · intro ax hnil
    rw [decelRateRaw]
    simp only [if_pos (List.length_pos.mpr hnil)]
  · intro q h
    rw [glideEfficiencyOf, if_pos h]
  · intro q h
    rw [glideEfficiencyOf, if_neg (by norm_num at h ⊢; linarith), if_pos (by norm_num at h ⊢; linarith)]
  · intro q h1 h2
    rw [glideEfficiencyOf, if_neg (by linarith), if_neg (by norm_num at h1 ⊢; linarith),
      if_pos h2]
  · intro q h1 h2
    rw [glideEfficiencyOf, if_neg (by linarith), if_neg (by norm_num; linarith),
      if_neg (by linarith)]
  · rw [hconc]; norm_num
  · rw [hconc, show |(-(4 / 3) : ℚ)| = 4 / 3 by norm_num]
    norm_num [glideEfficiencyOf]
  · rw [hconc, show |(-(4 / 3) : ℚ)| = 4 / 3 by norm_num, Int.floor_eq_iff]
    norm_num

/-- C5 (witness): classification applied at rate 3 (high drag). -/
theorem C5_witness : glideEfficiencyOf 3 = "Poor (High Drag)" :=
  C5_decel_glide.2.2.1 3 (by norm_num)

/-- C4: the scalar stability score equals
`max(0, min(100, 100 - log10(variance + 1) * 20))` over the population
variance of the pitch/roll magnitude series; it is monotonically
non-increasing in that variance, and always lies in `[0, 100]`. -/
theorem C4_stability_score :
    (∀ gx gy : List ℚ,
        stabilityScoreOf gx gy =
          max 0 (min 100
            (100 - Real.logb 10 (calculateVariance (pitchRollSeries gx gy) + 1) * 20)))
    ∧ (∀ gx1 gy1 gx2 gy2 : List ℚ,
        calculateVariance (pitchRollSeries gx1 gy1) ≤
            calculateVariance (pitchRollSeries gx2 gy2) →
          stabilityScoreOf gx2 gy2 ≤ stabilityScoreOf gx1 gy1)
    ∧ (∀ gx gy : List ℚ, 0 ≤ stabilityScoreOf gx gy ∧ stabilityScoreOf gx gy ≤ 100) := by
  refine ⟨fun gx gy => rfl, ?_, ?_⟩
  · intro gx1 gy1 gx2 gy2 h
    rw [stabilityScoreOf, stabilityScoreOf]
    have h1 : (0 : ℝ) < calculateVariance (pitchRollSeries gx1 gy1) + 1 := by
      have := calculateVariance_nonneg (pitchRollSeries gx1 gy1)
      linarith
    have hlog : Real.logb 10 (calculateVariance (pitchRollSeries gx1 gy1) + 1) ≤
        Real.logb 10 (calculateVariance (pitchRollSeries gx2 gy2) + 1) :=
      Real.logb_le_logb_of_le (by norm_num) h1 (by linarith)
    exact max_le_max (le_refl 0) (min_le_min (le_refl 100) (by linarith))
  · intro gx gy
    refine ⟨le_max_left 0 _, ?_⟩
    rw [stabilityScoreOf]
    exact max_le (by norm_num) (min_le_left _ _)

/-- C4 (witness): monotonicity applied at two equal inputs. -/
theorem C4_witness : stabilityScoreOf [1] [2] ≤ stabilityScoreOf [1] [2] :=
  C4_stability_score.2.1 [1] [2] [1] [2] (le_refl _)

/-- C10: a delivery whose trimmed angular-rate stream is empty still gets
a persisted ThrowMetrics whose `stabilityScore` is exactly 100: the
variance of the empty pitch/roll magnitude series is defined as 0,
`log10(0 + 1) = 0`, and the clamp leaves `100`. -/
theorem C10_empty_gyro_stability :
    calculateVariance ([] : List ℝ) = 0
    ∧ stabilityScoreOf [] [] = 100
    ∧ (∀ d : SensorData, d.gyro = [] → d.accel ≠ [] →
        (savedThrowOf d).map (fun m => m.stabilityScore) = some 100) := by
  have hv : calculateVariance ([] : List ℝ) = 0 := by rw [calculateVariance]; simp
  have hs : stabilityScoreOf [] [] = 100 := by
    rw [stabilityScoreOf]
    have hpr : pitchRollSeries [] [] = [] := by simp [pitchRollSeries]
    rw [hpr, hv]
    norm_num [Real.logb_one]
  refine ⟨hv, hs, ?_⟩
  intro d hgyro haccel
  have hd : hasData d = true := by
    rw [hasData]
    simp [List.length_pos.mpr haccel]
  have hpg : (processDataM d).gyro = [] := by
    rw [processDataM, if_pos hd, calculateVelocityM]
    show (trimToActualThrow d).gyro = []
    rw [trimToActualThrow, if_neg haccel]
    simp only [hgyro, if_pos]
  rw [savedThrowOf, if_pos hd, Option.map_some']
  have hproj : (metricsOfData (processDataM d)).stabilityScore =
      stabilityScoreOf ((processDataM d).gyro.map (fun s => s.x))
        ((processDataM d).gyro.map (fun s => s.y)) := rfl
  rw [hproj, hpg]
  simp only [List.map_nil]
  rw [hs]

/-- C10 (witness): the empty-gyro persisted score at a concrete
one-sample acceleration capture. -/
theorem C10_witness :
    (savedThrowOf ⟨[⟨3, 0, 0⟩], [0], [], [], []⟩).map (fun m => m.stabilityScore) = some 100 :=
  C10_empty_gyro_stability.2.2 ⟨[⟨3, 0, 0⟩], [0], [], [], []⟩ rfl (by simp)

/-- C1 (code bug): the claim (and the spec invariant) says every numeric
field of a persisted ThrowMetrics is finite, explicitly including trimmed
captures with fewer than 5 acceleration samples.  For the reachable
one-sample capture `(3,0,0)` the first-20% push-off window is empty
(`Math.floor(1 * 0.2) = 0`), so `Math.max()` over it is `-Infinity`
(`⊥` in the model), and this non-finite `pushoffStrength` is handed to
persistence. -/
theorem C1_pushoff_not_finite :
    ((savedThrowOf ⟨[⟨3, 0, 0⟩], [0], [], [], []⟩).map fun m => m.pushoffStrength) = some ⊥ := by
  norm_num [savedThrowOf, hasData, processDataM, calculateVelocityM, trimToActualThrow,
    trimStartIndex, findStartAux, bigB, magSq, trimEndIndex, findEndAux, metricsOfData,
    calculateAnalysisMetricsFn, pushoffPeriodOf, mathMax]

/-- C7 (code bug): the claim (and the spec) says a capture whose trimmed
acceleration stream is empty — explicitly including captures with
angular-rate samples but no acceleration samples — yields a NoData outcome
and no persisted ThrowMetrics.  The guard `hasData()` tests acceleration
OR gyroscope, so the gyro-only capture below passes it and a ThrowMetrics
is created and persisted even though the trimmed acceleration stream is
empty. -/
theorem C7_gyro_only_persists :
    (processDataM ⟨[], [], [⟨1, 2, 3⟩], [0], []⟩).accel = []
      ∧ (savedThrowOf ⟨[], [], [⟨1, 2, 3⟩], [0], []⟩).isSome = true := by
  constructor
  · norm_num [processDataM, hasData, calculateVelocityM, trimToActualThrow]
  · norm_num [savedThrowOf, hasData]

theorem sum_of_const {l : List ℝ} {a : ℝ} (h : ∀ v ∈ l, v = a) :
    l.sum = (l.length : ℝ) * a := by
  induction l with
  | nil => simp
  | cons x xs ih =>
    rw [List.sum_cons, h x (List.mem_cons_self x xs),
      ih (fun v hv => h v (List.mem_cons_of_mem x hv)), List.length_cons]
    push_cast
    ring

theorem calculateCV_const {l : List ℝ} {a : ℝ} (hne : l ≠ []) (h : ∀ v ∈ l, v = a) :
    calculateCV l = 0 := by
  have hlen : (l.length : ℝ) ≠ 0 :=
    Nat.cast_ne_zero.mpr (List.length_pos.mpr hne).ne'
  have hmean : l.sum / (l.length : ℝ) = a := by
    rw [sum_of_const h, mul_comm, mul_div_assoc, div_self hlen, mul_one]
  have hvar : (l.map (fun v => (v - l.sum / (l.length : ℝ)) ^ 2)).sum = 0 :=
    List.sum_eq_zero (fun x hx => by
      obtain ⟨v, hv, rfl⟩ := List.mem_map.mp hx
      rw [hmean, h v hv, sub_self]
      exact zero_pow (by norm_num))
  rw [calculateCV, if_neg hne]
  by_cases hm : l.sum / (l.length : ℝ) = 0
  · rw [if_pos hm]
  · rw [if_neg hm, hvar, zero_div, Real.sqrt_zero, zero_div, zero_mul]

/-- C9: the session `consistency` equals `max(0, 100 - avgCV * 10)` with
`avgCV` the mean of the three coefficients of variation over the pushoff,
velocity and stability sequences, and it is exactly 100 whenever all
three sequences are constant across the (non-empty) throw list. -/
theorem C9_consistency :
    (∀ throws : List SessionThrow,
        consistencyOf throws =
          max 0 (100 -
            (calculateCV (throws.map (fun t => t.pushoffStrength)) +
                calculateCV (throws.map (fun t => t.peakVelocity)) +
                calculateCV (throws.map (fun t => t.stabilityScore))) / 3 * 10))
    ∧ (∀ (throws : List SessionThrow) (a b c : ℝ), throws ≠ [] →
        (∀ t ∈ throws, t.pushoffStrength = a) →
        (∀ t ∈ throws, t.peakVelocity = b) →
        (∀ t ∈ throws, t.stabilityScore = c) →
        consistencyOf throws = 100) := by
  refine ⟨fun throws => rfl, ?_⟩
  intro throws a b c hne hpa hpb hpc
  have hmap : ∀ f : SessionThrow → ℝ, throws.map f ≠ [] := by
    intro f hmap
    exact hne (List.map_eq_nil_iff.mp hmap)
  have h1 : calculateCV (throws.map (fun t => t.pushoffStrength)) = 0 :=
    calculateCV_const (hmap _) (fun v hv => by
      obtain ⟨t, ht, rfl⟩ := List.mem_map.mp hv
      exact hpa t ht)
  have h2 : calculateCV (throws.map (fun t => t.peakVelocity)) = 0 :=
    calculateCV_const (hmap _) (fun v hv => by
      obtain ⟨t, ht, rfl⟩ := List.mem_map.mp hv
      exact hpb t ht)
  have h3 : calculateCV (throws.map (fun t => t.stabilityScore)) = 0 :=
    calculateCV_const (hmap _) (fun v hv => by
      obtain ⟨t, ht, rfl⟩ := List.mem_map.mp hv
      exact hpc t ht)
  rw [consistencyOf, h1, h2, h3]
  norm_num

/-- C9 (witness): consistency of two identical throws is 100. -/
theorem C9_witness : consistencyOf [⟨1, 2, 3⟩, ⟨1, 2, 3⟩] = 100 :=
  C9_consistency.2 [⟨1, 2, 3⟩, ⟨1, 2, 3⟩] 1 2 3 (by simp)
    (by
      intro t ht
      simp only [List.mem_cons, List.not_mem_nil, or_false] at ht
      rcases ht with rfl | rfl <;> rfl)
    (by
      intro t ht
      simp only [List.mem_cons, List.not_mem_nil, or_false] at ht
      rcases ht with rfl | rfl <;> rfl)
    (by
      intro t ht
      simp only [List.mem_cons, List.not_mem_nil, or_false] at ht
      rcases ht with rfl | rfl <;> rfl)

theorem autoStopStep_not_recording (st : AutoStopState) (s : MotionSample)
    (h : st.isRecording = false) : autoStopStep st s = (st, false) := by
  rw [autoStopStep, if_neg]
  simp [h]

theorem autoStopRun_not_recording (l : List MotionSample) : ∀ st : AutoStopState,
    st.isRecording = false → autoStopRun st l = (st, 0) := by
  induction l with
  | nil => intro st _; rfl
  | cons s rest ih =>
    intro st h
    rw [autoStopRun, autoStopStep_not_recording st s h]
    simp [ih st h]

theorem autoStopStep_emitted_stops (st : AutoStopState) (s : MotionSample)
    (h : (autoStopStep st s).2 = true) : (autoStopStep st s).1.isRecording = false := by
  rw [autoStopStep] at h ⊢
  split_ifs at h ⊢ with h1 h2
  simp_all

theorem autoStopRun_le_one (l : List MotionSample) : ∀ st : AutoStopState,
    (autoStopRun st l).2 ≤ 1 := by
  induction l with
  | nil => intro st; exact Nat.zero_le 1
  | cons s rest ih =>
    intro st
    rw [autoStopRun]
    by_cases he : (autoStopStep st s).2 = true
    · rw [if_pos he, autoStopRun_not_recording rest _ (autoStopStep_emitted_stops st s he)]
      simp
    · rw [if_neg he]
      simpa using ih (autoStopStep st s).1

theorem autoStopStep_grace (st : AutoStopState) (s : MotionSample) (h : s.t ≤ 10) :
    autoStopStep st s = (st, false) := by
  rw [autoStopStep]
  split_ifs with h1 h2
  · exact absurd h2.1 (by linarith)
  · rfl
  · rfl

theorem autoStopRun_grace (l : List MotionSample) : ∀ st : AutoStopState,
    (∀ s ∈ l, s.t ≤ 10) → (autoStopRun st l).2 = 0 := by
  induction l with
  | nil => intro st _; rfl
  | cons s rest ih =>
    intro st h
    rw [autoStopRun, autoStopStep_grace st s (h s (List.mem_cons_self s rest))]
    simp [ih st (fun x hx => h x (List.mem_cons_of_mem s hx))]

/-- C6: during a recording the auto-stop detector emits its signal at most
once, and a step emits exactly when the state is still recording, the
sample's timestamp exceeds the 10 s grace period, at least 0.5 s have
elapsed since the previous rate-limited check, and the evicted buffer
holds at least 6 entries all with magnitude below 1.5 m/s²; every
performed check (observable as an update of the check marker) lies at
least 0.5 s after the previous one; and a stream that never leaves the
grace period emits no signal at all. -/
theorem C6_autostop :
    (∀ (l : List MotionSample) (st : AutoStopState), (autoStopRun st l).2 ≤ 1)
    ∧ (∀ (st : AutoStopState) (s : MotionSample),
        (autoStopStep st s).2 = true ↔
          (st.isRecording = true ∧ 10 < s.t ∧ 1 / 2 ≤ s.t - st.lastAutoStopCheck ∧
            6 ≤ (checkedBuffer st s).length ∧ ∀ p ∈ checkedBuffer st s, p.1 < 9 / 4))
    ∧ (∀ (st : AutoStopState) (s : MotionSample),
        (autoStopStep st s).1.lastAutoStopCheck ≠ st.lastAutoStopCheck →
          (autoStopStep st s).1.lastAutoStopCheck = s.t ∧
            1 / 2 ≤ s.t - st.lastAutoStopCheck)
    ∧ (∀ l : List MotionSample, (∀ s ∈ l, s.t ≤ 10) →
        (autoStopRun initialAutoStopState l).2 = 0) := by
  refine ⟨fun l st => autoStopRun_le_one l st, ?_, ?_,
    fun l h => autoStopRun_grace l initialAutoStopState h⟩
  · intro st s
    rw [autoStopStep]
    split_ifs with h1 h2
    · simp only
      rw [autoStopSignal, Bool.and_eq_true, decide_eq_true_eq, List.all_eq_true]
      constructor
      · rintro ⟨hl, hc⟩
        exact ⟨h1, h2.1, h2.2, hl, fun p hp => by simpa using hc p hp⟩
      · rintro ⟨-, -, -, hl, hc⟩
        exact ⟨hl, fun p hp => by simpa using hc p hp⟩
    · refine ⟨fun hf => absurd hf (by simp), ?_⟩
      rintro ⟨-, ha, hb, -⟩
      exact h2 ⟨ha, hb⟩
    · refine ⟨fun hf => absurd hf (by simp), ?_⟩
      rintro ⟨hr, -⟩
      exact h1 hr
  · intro st s h
    rw [autoStopStep] at h ⊢
    split_ifs at h ⊢ with h1 h2
    · exact ⟨rfl, h2.2⟩
    · exact absurd rfl h
    · exact absurd rfl h

/-- C6 (witness): a sample inside the grace period emits nothing. -/
theorem C6_witness : (autoStopRun initialAutoStopState [⟨0, 0, 0, 5⟩]).2 = 0 :=
  C6_autostop.2.2.2 [⟨0, 0, 0, 5⟩] (by
    intro s hs
    simp only [List.mem_singleton] at hs
    subst hs
    norm_num)

theorem findStartAux_le (l : List Accel3) : ∀ i : ℕ,
    findStartAux l i ≤ i + l.length - 5 ∨ findStartAux l i = 0 := by
  induction l with
  | nil => intro i; exact Or.inr rfl
  | cons s rest ih =>
    intro i
    rw [findStartAux]
    by_cases hb : bigB s = true
    · rw [if_pos hb]
      left
      simp only [List.length_cons]
      omega
    · rw [if_neg hb]
      rcases ih (i + 1) with h | h
      · left
        simp only [List.length_cons]
        omega
      · right
        exact h

theorem trimStartIndex_lt (accel : List Accel3) (hne : accel ≠ []) :
    trimStartIndex accel < accel.length := by
  have hlen : 0 < accel.length := List.length_pos.mpr hne
  rcases findStartAux_le accel 0 with h | h
  · rw [trimStartIndex]
    omega
  · rw [trimStartIndex, h]
    omega

theorem findEndAux_some_ge (l : List Accel3) : ∀ (i c e : ℕ),
    findEndAux l i c = some e → i ≤ e + 10 := by
  induction l with
  | nil =>
    intro i c e h
    exact absurd h (by simp [findEndAux])
  | cons s rest ih =>
    intro i c e h
    rw [findEndAux] at h
    split_ifs at h with h1 h2
    · have he : i - 20 + 10 = e := by injection h
      omega
    · have := ih (i + 1) (c + 1) e h
      omega
    · have := ih (i + 1) 0 e h
      omega

theorem trimStart_le_trimEnd (accel : List Accel3) (hne : accel ≠ []) :
    trimStartIndex accel ≤ trimEndIndex accel := by
  rw [trimEndIndex]
  cases heq : findEndAux (accel.drop (trimStartIndex accel + 30))
      (trimStartIndex accel + 30) 0 with
  | none =>
    have := trimStartIndex_lt accel hne
    simp only [Option.getD_none]
    omega
  | some e =>
    have := findEndAux_some_ge _ _ _ _ heq
    simp only [Option.getD_some]
    omega

theorem trimToActualThrow_accel (d : SensorData) (hne : d.accel ≠ []) :
    (trimToActualThrow d).accel =
      (d.accel.drop (trimStartIndex d.accel)).take
        (trimEndIndex d.accel + 1 - trimStartIndex d.accel) := by
  rw [trimToActualThrow, if_neg hne]

theorem trim_accel_ne_nil (d : SensorData) (hne : d.accel ≠ []) :
    (trimToActualThrow d).accel ≠ [] := by
  rw [trimToActualThrow_accel d hne]
  have h1 := trimStartIndex_lt d.accel hne
  have h2 := trimStart_le_trimEnd d.accel hne
  rw [← List.length_pos, List.length_take, List.length_drop]
  omega

theorem hasData_processed (d : SensorData) (h : hasData d = true) :
    hasData (processDataM d) = true := by
  rw [processDataM, if_pos h]
  by_cases hacc : d.accel = []
  · rw [hasData] at h ⊢
    rw [trimToActualThrow, if_pos hacc]
    simpa [calculateVelocityM] using h
  · have hlen : 0 < (trimToActualThrow d).accel.length :=
      List.length_pos.mpr (trim_accel_ne_nil d hacc)
    rw [hasData]
    simp [calculateVelocityM, hlen]

/-- C8 (counterexample): stopping is not idempotent.  On a state holding
one recorded acceleration sample, the first `stopRecording` appends one
metrics record to the persisted throw list, and a second `stopRecording`
re-processes the stored data and appends a second record, so the second
call does not leave the persisted throw list as the first call left it. -/
theorem C8_counterexample :
    (stopRecordingM (stopRecordingM ⟨⟨[⟨3, 0, 0⟩], [0], [], [], []⟩, true, []⟩)).throws.length = 2
    ∧ (stopRecordingM ⟨⟨[⟨3, 0, 0⟩], [0], [], [], []⟩, true, []⟩).throws.length = 1 := by
  constructor <;>
    norm_num [stopRecordingM, savedThrowOf, hasData, processDataM, calculateVelocityM,
      trimToActualThrow, trimStartIndex, findStartAux, bigB, magSq, trimEndIndex, findEndAux]

/-- C8 (amended): a second stop call is not a no-op.  Every
`stopRecording` on a state with recorded data clears the recording flag
(that part is idempotent) but appends one more ThrowMetrics to the
persisted throw list, so applying it twice differs from applying it
once. -/
theorem C8_stop_appends (st : AppState) (h : hasData st.data = true) :
    (stopRecordingM st).recording = false
    ∧ (stopRecordingM st).throws.length = st.throws.length + 1
    ∧ stopRecordingM (stopRecordingM st) ≠ stopRecordingM st := by
  have hlen : ∀ s : AppState, hasData s.data = true →
      (stopRecordingM s).throws.length = s.throws.length + 1 := by
    intro s hs
    rw [stopRecordingM]
    simp [savedThrowOf, hs]
  have h2 : hasData (stopRecordingM st).data = true := hasData_processed st.data h
  refine ⟨rfl, hlen st h, ?_⟩
  intro heq
  have ha := hlen (stopRecordingM st) h2
  rw [heq] at ha
  omega

/-- C8 (witness): the amended statement at a concrete one-sample state. -/
theorem C8_witness :
    (stopRecordingM ⟨⟨[], [], [⟨0, 1, 0⟩], [0], []⟩, true, []⟩).recording = false
    ∧ (stopRecordingM ⟨⟨[], [], [⟨0, 1, 0⟩], [0], []⟩, true, []⟩).throws.length = 1
    ∧ stopRecordingM (stopRecordingM ⟨⟨[], [], [⟨0, 1, 0⟩], [0], []⟩, true, []⟩) ≠
        stopRecordingM ⟨⟨[], [], [⟨0, 1, 0⟩], [0], []⟩, true, []⟩ :=
  C8_stop_appends ⟨⟨[], [], [⟨0, 1, 0⟩], [0], []⟩, true, []⟩ (by decide)

end PeelWeight
